import Mathlib

/-!
Shallow embedding of the Perforated Plate Generator's pattern engine
(`src/App.tsx`, `src/types.ts`).

Numbers are modelled as rationals (`ℚ`): the source uses JS numbers for
millimetre quantities and the algorithms are pure arithmetic on them.
Pixel channel values are the natural numbers a `Uint8ClampedArray` yields.
-/

namespace Perf

/-- `shape` field of `PlateConfig` in `types.ts`: only `circle` is implemented. -/
inductive Shape where
  | circle : Shape
  | square : Shape
deriving DecidableEq

/-- `PlateConfig` from `types.ts`. All dimensional fields are millimetres. -/
structure PlateConfig where
  width : ℚ
  height : ℚ
  spacing : ℚ
  minHoleSize : ℚ
  maxHoleSize : ℚ
  margin : ℚ
  inverted : Bool
  threshold : ℚ
  shape : Shape
deriving DecidableEq

/-- `Dot` from `types.ts`: centre coordinates and radius in millimetres. -/
structure Dot where
  x : ℚ
  y : ℚ
  r : ℚ
deriving DecidableEq

/-- One resampled cell's RGB bytes, as read from the canvas `ImageData`
(`data[idx]`, `data[idx+1]`, `data[idx+2]` in `App.tsx`). -/
structure Pixel where
  r : ℕ
  g : ℕ
  b : ℕ

/-- A resampled image: the RGB bytes of cell `(row, col)`.  This is the
content of the hidden canvas after `drawImage(img, 0, 0, cols, rows)`. -/
def Image : Type := ℕ → ℕ → Pixel

/-- `effW = Math.max(0, config.width - config.margin * 2)` (App.tsx line 73). -/
def effW (cfg : PlateConfig) : ℚ := max 0 (cfg.width - cfg.margin * 2)

/-- `effH = Math.max(0, config.height - config.margin * 2)` (App.tsx line 74). -/
def effH (cfg : PlateConfig) : ℚ := max 0 (cfg.height - cfg.margin * 2)

/-- `cols = Math.floor(effW / config.spacing)` (App.tsx line 82). -/
def cols (cfg : PlateConfig) : ℕ := (⌊effW cfg / cfg.spacing⌋).toNat

/-- `rows = Math.floor(effH / config.spacing)` (App.tsx line 83). -/
def rows (cfg : PlateConfig) : ℕ := (⌊effH cfg / cfg.spacing⌋).toNat

/-- `luminance = 0.299 * r + 0.587 * g + 0.114 * b` (App.tsx line 120). -/
def luminance (p : Pixel) : ℚ := 0.299 * p.r + 0.587 * p.g + 0.114 * p.b

/-- `norm = luminance / 255` (App.tsx line 121), the luminance sample in `[0,1]`. -/
def sampleOf (p : Pixel) : ℚ := luminance p / 255

/-- The radius mapping of App.tsx lines 96-97 and 121-128:
`norm` is flipped when `inverted`, `sizeFactor = 1 - norm`, and
`radius = minHoleSize/2 + sizeFactor * (maxHoleSize - minHoleSize)/2`. -/
def mapRadius (cfg : PlateConfig) (sample : ℚ) : ℚ :=
  let norm := if cfg.inverted then 1 - sample else sample
  let sizeFactor := 1 - norm
  cfg.minHoleSize / 2 + sizeFactor * ((cfg.maxHoleSize - cfg.minHoleSize) / 2)

/-- `physX = config.margin + x * config.spacing + config.spacing / 2` (line 130). -/
def physX (cfg : PlateConfig) (x : ℕ) : ℚ :=
  cfg.margin + x * cfg.spacing + cfg.spacing / 2

/-- `physY = config.margin + y * config.spacing + config.spacing / 2` (line 131). -/
def physY (cfg : PlateConfig) (y : ℕ) : ℚ :=
  cfg.margin + y * cfg.spacing + cfg.spacing / 2

/-- The body of the inner `for (let x = ...)` loop of `processChunk`
(App.tsx lines 114-136): the cell yields a dot exactly when `radius > 0.1`. -/
def cellDot (cfg : PlateConfig) (img : Image) (y x : ℕ) : Option Dot :=
  let radius := mapRadius cfg (sampleOf (img y x))
  if radius > 0.1 then some ⟨physX cfg x, physY cfg y, radius⟩ else none

/-- The dots of one grid row, in increasing column order. -/
def rowDots (cfg : PlateConfig) (img : Image) (y : ℕ) : List Dot :=
  (List.range (cols cfg)).filterMap (cellDot cfg img y)

/-- The dots contributed by the first `n` rows — the accumulator `newDots`
after the chunk loop has advanced `y` to `n`. -/
def dotsUpTo (cfg : PlateConfig) (img : Image) (n : ℕ) : List Dot :=
  (List.range n).flatMap (rowDots cfg img)

/-- The full result of an uninterrupted run of `processImage` on `img`,
on the paths where the canvas calls succeed: empty when the effective
geometry is degenerate (App.tsx lines 76-80), otherwise all rows
processed in row-major order.  The canvas throw on a zero-dimension grid
is modelled one level up by `generateDotsE`. -/
def generateDots (cfg : PlateConfig) (img : Image) : List Dot :=
  if effW cfg ≤ 0 ∨ effH cfg ≤ 0 then []
  else dotsUpTo cfg img (rows cfg)

/-- The observable outcome of one `img.onload` run, canvas error path
included.  When the degenerate-geometry guard (App.tsx lines 76-80)
passes but `cols = 0` or `rows = 0` — reachable whenever
`0 < effW < spacing` or `0 < effH < spacing` — the source still reaches
`ctx.getImageData(0, 0, cols, rows)` (line 92), which the canvas
specification makes throw `IndexSizeError` on a zero dimension: the
`onload` handler aborts, nothing is published and `processing` never
clears.  `none` models that throw; on every other input the run
publishes `generateDots`. -/
def generateDotsE (cfg : PlateConfig) (img : Image) : Option (List Dot) :=
  if effW cfg ≤ 0 ∨ effH cfg ≤ 0 then some []
  else if cols cfg = 0 ∨ rows cfg = 0 then none
  else some (generateDots cfg img)

/-! ### Export serialization (`handleExport`, App.tsx lines 164-198) -/

/-- Decimal digit characters of `n`, most significant first, via fuel-bounded
division (the fuel `n + 1` always suffices since `n / 10 < n` for `n ≥ 10`). -/
def natDigitsAux : ℕ → ℕ → List Char
  | 0, _ => []
  | fuel + 1, n =>
    if n < 10 then [Nat.digitChar n]
    else natDigitsAux fuel (n / 10) ++ [Nat.digitChar (n % 10)]

/-- Decimal digit characters of a natural number, most significant first. -/
def natDigits (n : ℕ) : List Char := natDigitsAux (n + 1) n

/-- Rounding to the nearest integer, ties toward positive infinity — the
rounding `Number.prototype.toFixed` applies to the scaled value. -/
def jsRound (q : ℚ) : ℤ := ⌊q + 1 / 2⌋

/-- The two-digit zero-padded form of `m < 100`. -/
def pad2 (m : ℕ) : List Char := [Nat.digitChar (m / 10), Nat.digitChar (m % 10)]

/-- Model of JavaScript `x.toFixed(2)`: round `x * 100` to the nearest
integer and print it with the last two digits behind a decimal point. -/
def toFixed2 (q : ℚ) : String :=
  (if jsRound (q * 100) < 0 then "-" else "") ++
    String.mk (natDigits ((jsRound (q * 100)).natAbs / 100)) ++ "." ++
    String.mk (pad2 ((jsRound (q * 100)).natAbs % 100))

/-- Model of JavaScript template-literal serialization of a number
(the plain interpolations in the svg template): an integral value prints
as its decimal digits with no decimal point — the case every theorem below
exercises.  A non-integral value falls back to the exact `num/den` form,
standing in for JS shortest round-trip printing. -/
def jsNumToString (q : ℚ) : String :=
  (if q.num < 0 then "-" else "") ++ String.mk (natDigits q.num.natAbs) ++
    (if q.den = 1 then "" else "/" ++ String.mk (natDigits q.den))

/-- One exported circle element (App.tsx line 180): `cx`, `cy` and `r`
are serialized through `.toFixed(2)`. -/
def circleStr (d : Dot) : String :=
  "<circle cx=\"" ++ toFixed2 d.x ++ "\" cy=\"" ++ toFixed2 d.y ++
    "\" r=\"" ++ toFixed2 d.r ++ "\" />"

/-- The svg text up to the circle group (App.tsx lines 170-180, after
`.trim()`): the document width/height, the viewBox and the boundary
rectangle interpolate `finalWidth`/`finalHeight` as plain numbers. -/
def svgHead (cfg : PlateConfig) : String :=
  "<svg \n    xmlns=\"http://www.w3.org/2000/svg\" \n    width=\"" ++
    jsNumToString cfg.width ++ "mm\" \n    height=\"" ++
    jsNumToString cfg.height ++ "mm\" \n    viewBox=\"0 0 " ++
    jsNumToString cfg.width ++ " " ++ jsNumToString cfg.height ++
    "\"\n>\n    <!-- Created with PerfoMate -->\n    <rect x=\"0\" y=\"0\" width=\"" ++
    jsNumToString cfg.width ++ "\" height=\"" ++ jsNumToString cfg.height ++
    "\" fill=\"none\" stroke=\"black\" stroke-width=\"0.5\" />\n    <g fill=\"black\">\n        "

/-- The closing svg text after the circle group (App.tsx lines 181-182). -/
def svgTail : String := "\n    </g>\n</svg>"

/-- The exported svg document (`svgContent` in App.tsx lines 170-182). -/
def svgContent (cfg : PlateConfig) (dots : List Dot) : String :=
  svgHead cfg ++ String.join (dots.map circleStr) ++ svgTail

/-- Modelled from the spec: the document the spec's sentence describes,
with EVERY interpolated numeric value — document width/height, viewBox and
boundary rectangle included — serialized with fixed 2-decimal precision. -/
def svgContentAllFixed (cfg : PlateConfig) (dots : List Dot) : String :=
  "<svg \n    xmlns=\"http://www.w3.org/2000/svg\" \n    width=\"" ++
    toFixed2 cfg.width ++ "mm\" \n    height=\"" ++
    toFixed2 cfg.height ++ "mm\" \n    viewBox=\"0 0 " ++
    toFixed2 cfg.width ++ " " ++ toFixed2 cfg.height ++
    "\"\n>\n    <!-- Created with PerfoMate -->\n    <rect x=\"0\" y=\"0\" width=\"" ++
    toFixed2 cfg.width ++ "\" height=\"" ++ toFixed2 cfg.height ++
    "\" fill=\"none\" stroke=\"black\" stroke-width=\"0.5\" />\n    <g fill=\"black\">\n        " ++
    String.join (dots.map circleStr) ++ svgTail

/-- A string that ends in a decimal point followed by exactly two digits,
with no other decimal point: the shape of a fixed 2-decimal serialization. -/
def FracLen2 (s : String) : Prop :=
  ∃ t c₁ c₂, s.data = t ++ ['.', c₁, c₂] ∧ c₁.isDigit ∧ c₂.isDigit ∧ '.' ∉ t

/-- An image whose channel values are bytes, as a canvas
`Uint8ClampedArray` guarantees. -/
def ByteImage (img : Image) : Prop :=
  ∀ y x, (img y x).r ≤ 255 ∧ (img y x).g ≤ 255 ∧ (img y x).b ≤ 255

/-! ### Chunked execution and cancellation (App.tsx lines 52-152)

The host scheduler is single-threaded and cooperative: a generation run
only executes at its callback boundaries (`img.onload`, and each
`requestAnimationFrame` resumption of `processChunk`), and a new run can
only start between such callbacks.  A system history is therefore a
sequence of atomic events: `start` (a call of `processImage`: it bumps
`processIdRef` and registers the run) and `chunk t n` (the callback of the
run started with token `t` fires and gets through `n` more rows before its
12ms budget expires; `n` is arbitrary, modelling the wall clock).  The
first `chunk` of a token plays the role of `img.onload`: both it and every
resumption begin with the same token test, and the degenerate-geometry
test of `onload` can only ever fire on a run's first callback since a
degenerate run never advances past it.  The scheduler model covers the
paths where the canvas calls succeed; on a zero-dimension grid the source
run instead dies at `getImageData` before its chunk loop, an outcome
recorded by `generateDotsE` above. -/

/-- The private state of one `processImage` invocation: the captured
`currentProcessId` is the map key, so a run stores the captured `config`
and image, the next unprocessed row `y`, the accumulator `newDots`, and
whether it has stopped (published, or detected its own supersession). -/
structure Run where
  cfg : PlateConfig
  img : Image
  y : ℕ
  acc : List Dot
  stopped : Bool

/-- The shared state of the App component: the `processIdRef` counter,
the published `dots`, the `progress` percentage, the `processing` flag,
and the run registered under each token. -/
structure Sys where
  curToken : ℕ
  published : List Dot
  progress : ℤ
  processing : Bool
  runs : ℕ → Option Run

/-- The initial state: `processIdRef.current = 0`, no dots, no runs. -/
def initSys : Sys :=
  { curToken := 0, published := [], progress := 0, processing := false,
    runs := fun _ => none }

/-- An atomic scheduler event (see the section header). -/
inductive Event where
  | start (cfg : PlateConfig) (img : Image) : Event
  | chunk (t n : ℕ) : Event

/-- The dots of rows `y, y+1, …, y+n-1`, the slice a chunk appends. -/
def rowsSeg (cfg : PlateConfig) (img : Image) (y n : ℕ) : List Dot :=
  (List.range' y n).flatMap (rowDots cfg img)

/-- `processImage` (App.tsx lines 52-58): bump `processIdRef`, set
`processing`, reset `progress`, and register the new run under the new
token; the published dots are untouched. -/
def startStep (s : Sys) (cfg : PlateConfig) (img : Image) : Sys :=
  { curToken := s.curToken + 1, published := s.published, progress := 0,
    processing := true,
    runs := fun u => if u = s.curToken + 1 then some ⟨cfg, img, 0, [], false⟩
      else s.runs u }

/-- One callback of the run with token `t` getting through `n` more rows
(App.tsx lines 65-146).  In order: the token test (`onload` line 66 and
`processChunk` line 103) stops a superseded run with no other effect; the
degenerate-geometry test (lines 76-80) publishes an empty dot list; a
chunk that runs out of budget before the last row accumulates its slice
and reports progress (lines 108-111); a chunk that reaches the last row
publishes the accumulated dots (lines 140-142). -/
def chunkStep (s : Sys) (t n : ℕ) : Sys :=
  match s.runs t with
  | none => s
  | some r =>
    if r.stopped then s
    else if t ≠ s.curToken then
      { s with runs := fun u => if u = t then some { r with stopped := true }
          else s.runs u }
    else if effW r.cfg ≤ 0 ∨ effH r.cfg ≤ 0 then
      { s with
        published := [],
        processing := false,
        runs := fun u => if u = t then some { r with stopped := true }
          else s.runs u }
    else if r.y + n < rows r.cfg then
      { s with
        progress := jsRound (((r.y + n : ℚ) / (rows r.cfg : ℚ)) * 100),
        runs := fun u => if u = t then
            some { r with y := r.y + n, acc := r.acc ++ rowsSeg r.cfg r.img r.y n }
          else s.runs u }
    else
      { s with
        published := r.acc ++ rowsSeg r.cfg r.img r.y (rows r.cfg - r.y),
        progress := 100,
        processing := false,
        runs := fun u => if u = t then
            some { r with
              y := rows r.cfg,
              acc := r.acc ++ rowsSeg r.cfg r.img r.y (rows r.cfg - r.y),
              stopped := true }
          else s.runs u }

/-- One event's effect on the shared state. -/
def step (s : Sys) : Event → Sys
  | .start cfg img => startStep s cfg img
  | .chunk t n => chunkStep s t n

/-- The state after a history of events, from the initial state. -/
def runTrace (tr : List Event) : Sys := tr.foldl step initSys

/-- The inputs carried by an event, when it is a `start`. -/
def startOf : Event → Option (PlateConfig × Image)
  | .start cfg img => some (cfg, img)
  | .chunk _ _ => none

/-- The inputs of the most recent `start` event of a history, if any:
the inputs of the run the engine currently considers non-stale. -/
def lastStart : List Event → Option (PlateConfig × Image)
  | [] => none
  | e :: es => (lastStart es).elim (startOf e) some

/-- The inductive invariant of the scheduler: every registered run is
tagged at most with the current token, never points past the last row,
and — while it has not stopped — its accumulator holds exactly the dots
of its first `y` rows; moreover the run registered under the current
token was started by the history's most recent `start` event. -/
def SysInv (tr : List Event) (s : Sys) : Prop :=
  (∀ t r, s.runs t = some r →
    t ≤ s.curToken ∧ r.y ≤ rows r.cfg ∧
      (r.stopped = false → r.acc = dotsUpTo r.cfg r.img r.y)) ∧
  (∀ r, s.runs s.curToken = some r → lastStart tr = some (r.cfg, r.img))

/-! ### Concrete fixtures used to instantiate the theorems -/

/-- The E2E configuration of the spec: 100×100 plate, 10mm pitch, no
margin, hole diameters 1-6mm, not inverted. -/
def cfgA : PlateConfig :=
  { width := 100, height := 100, spacing := 10, minHoleSize := 1,
    maxHoleSize := 6, margin := 0, inverted := false, threshold := 128,
    shape := Shape.circle }

/-- A uniform image whose every cell has luminance exactly `127.5`, hence
luminance sample exactly `1/2`:
`0.299 * 90 + 0.587 * 150 + 0.114 * 110 = 127.5`. -/
def imgGray : Image := fun _ _ => ⟨90, 150, 110⟩

/-- A zero-grid plate: `effW = effH = 100 - 2 * 48 = 4 > 0` passes the
degenerate guard, yet `cols = rows = (4 / 8).floor = 0`, so the source
run throws at `getImageData(0, 0, 0, 0)`. -/
def cfgZ : PlateConfig :=
  { width := 100, height := 100, spacing := 8, minHoleSize := 1,
    maxHoleSize := 6, margin := 48, inverted := false, threshold := 128,
    shape := Shape.circle }

/-- The degenerate plate of the spec's P4: `margin = 300` swallows the
whole 500×500 plate. -/
def cfgDeg : PlateConfig :=
  { width := 500, height := 500, spacing := 8, minHoleSize := 1,
    maxHoleSize := 6, margin := 300, inverted := false, threshold := 128,
    shape := Shape.circle }

/-- A history in which run 1 (token 1, on `cfgA`) publishes its dots and
is then superseded by run 2 (token 2, on the degenerate `cfgDeg`); used to
instantiate the cancellation theorem. -/
def trW : List Event :=
  [Event.start cfgA imgGray, Event.chunk 1 1000, Event.start cfgDeg imgGray]

/-! ## Basic characterizations of the engine's output -/

theorem cellDot_eq_some_iff {cfg : PlateConfig} {img : Image} {y x : ℕ} {d : Dot} :
    cellDot cfg img y x = some d ↔
      0.1 < mapRadius cfg (sampleOf (img y x)) ∧
        d = ⟨physX cfg x, physY cfg y, mapRadius cfg (sampleOf (img y x))⟩ := by
  simp only [cellDot]
  split_ifs with h
  · simp [h, eq_comm]
  · simp [h]

theorem mem_rowDots {cfg : PlateConfig} {img : Image} {y : ℕ} {d : Dot} :
    d ∈ rowDots cfg img y ↔ ∃ x < cols cfg, cellDot cfg img y x = some d := by
  simp [rowDots, List.mem_filterMap, List.mem_range]

theorem mem_generateDots {cfg : PlateConfig} {img : Image} {d : Dot} :
    d ∈ generateDots cfg img ↔
      ¬(effW cfg ≤ 0 ∨ effH cfg ≤ 0) ∧
        ∃ y < rows cfg, ∃ x < cols cfg, cellDot cfg img y x = some d := by
  unfold generateDots dotsUpTo
  split_ifs with h
  · simp [h]
  · simp [h, List.mem_flatMap, List.mem_range, mem_rowDots]

theorem mapRadius_bounds_aux (cfg : PlateConfig) (s : ℚ)
    (hs0 : 0 ≤ s) (hs1 : s ≤ 1) (hmm : cfg.minHoleSize ≤ cfg.maxHoleSize) :
    cfg.minHoleSize / 2 ≤ mapRadius cfg s ∧ mapRadius cfg s ≤ cfg.maxHoleSize / 2 := by
  unfold mapRadius
  cases h : cfg.inverted <;> simp only [Bool.false_eq_true, if_true, if_false] <;>
    constructor <;> nlinarith

/-! ## C1: radius bounds -/

/-- C1: for every luminance sample in `[0,1]` and every config with
`0 ≤ minHoleSize ≤ maxHoleSize`, the mapped radius lies within
`[minHoleSize/2, maxHoleSize/2]` inclusive. -/
theorem mapRadius_mem_bounds (cfg : PlateConfig) (s : ℚ)
    (hs0 : 0 ≤ s) (hs1 : s ≤ 1)
    (hm0 : 0 ≤ cfg.minHoleSize) (hmm : cfg.minHoleSize ≤ cfg.maxHoleSize) :
    cfg.minHoleSize / 2 ≤ mapRadius cfg s ∧ mapRadius cfg s ≤ cfg.maxHoleSize / 2 :=
  mapRadius_bounds_aux cfg s hs0 hs1 hmm

theorem mapRadius_mem_bounds_witness :
    cfgA.minHoleSize / 2 ≤ mapRadius cfgA (1/2) ∧
      mapRadius cfgA (1/2) ≤ cfgA.maxHoleSize / 2 :=
  mapRadius_mem_bounds cfgA (1/2) (by norm_num) (by norm_num)
    (by norm_num [cfgA]) (by norm_num [cfgA])

/-! ## C5: inversion symmetry -/

/-- C5: for every config and sample `s ∈ [0,1]`, mapping with
`inverted = true` on `s` agrees with mapping with `inverted = false` on
`1 - s`, all other fields equal. -/
theorem mapRadius_inversion_symm (cfg : PlateConfig) (s : ℚ)
    (hs0 : 0 ≤ s) (hs1 : s ≤ 1) :
    mapRadius { cfg with inverted := true } s =
      mapRadius { cfg with inverted := false } (1 - s) := by
  simp [mapRadius]

theorem mapRadius_inversion_symm_witness :
    mapRadius { cfgA with inverted := true } (1/4) =
      mapRadius { cfgA with inverted := false } (1 - 1/4) :=
  mapRadius_inversion_symm cfgA (1/4) (by norm_num) (by norm_num)

/-! ## C6: degenerate geometry -/

/-- C6: whenever the effective width or height is `≤ 0`, the run yields
an empty dot list for every image — a defined result, not an error. -/
theorem degenerate_empty_dots (cfg : PlateConfig) (img : Image)
    (h : effW cfg ≤ 0 ∨ effH cfg ≤ 0) : generateDots cfg img = [] := by
  unfold generateDots
  rw [if_pos h]

theorem degenerate_empty_dots_witness : generateDots cfgDeg imgGray = [] :=
  degenerate_empty_dots cfgDeg imgGray (Or.inl (by norm_num [effW, cfgDeg]))

/-! ## C7: emission cutoff -/

/-- C7: every dot the engine emits has radius strictly greater than the
fixed `0.1`mm cutoff; a cell whose radius is at most `0.1`mm emits none. -/
theorem emitted_radius_gt_cutoff (cfg : PlateConfig) (img : Image) (d : Dot)
    (hd : d ∈ generateDots cfg img) : 0.1 < d.r := by
  rcases mem_generateDots.mp hd with ⟨-, y, -, x, -, hc⟩
  rcases cellDot_eq_some_iff.mp hc with ⟨hr, rfl⟩
  exact hr

theorem emitted_radius_gt_cutoff_witness :
    (0.1 : ℚ) < (Dot.mk 5 5 (7/4)).r :=
  emitted_radius_gt_cutoff cfgA imgGray ⟨5, 5, 7/4⟩
    (mem_generateDots.mpr ⟨by norm_num [effW, effH, cfgA], 0,
      by norm_num [rows, effH, cfgA], 0,
      by norm_num [cols, effW, cfgA] <;> decide,
      by norm_num [cellDot, mapRadius, sampleOf, luminance, physX, physY,
        imgGray, cfgA]⟩)

/-! ## Grid geometry lemmas -/

theorem effW_nonneg (cfg : PlateConfig) : 0 ≤ effW cfg := le_max_left 0 _

theorem effH_nonneg (cfg : PlateConfig) : 0 ≤ effH cfg := le_max_left 0 _

theorem cast_cols_mul_le (cfg : PlateConfig) (hs : 0 < cfg.spacing) :
    (cols cfg : ℚ) * cfg.spacing ≤ effW cfg := by
  have hdiv : (0:ℚ) ≤ effW cfg / cfg.spacing := div_nonneg (effW_nonneg cfg) hs.le
  have hfl : (0:ℤ) ≤ ⌊effW cfg / cfg.spacing⌋ := Int.floor_nonneg.mpr hdiv
  have hcast : (cols cfg : ℚ) ≤ effW cfg / cfg.spacing := by
    have h1 : ((cols cfg : ℤ) : ℚ) ≤ effW cfg / cfg.spacing := by
      rw [cols, Int.toNat_of_nonneg hfl]
      exact Int.floor_le _
    exact_mod_cast h1
  calc (cols cfg : ℚ) * cfg.spacing ≤ (effW cfg / cfg.spacing) * cfg.spacing :=
        mul_le_mul_of_nonneg_right hcast hs.le
    _ = effW cfg := div_mul_cancel₀ _ hs.ne'

theorem cast_rows_mul_le (cfg : PlateConfig) (hs : 0 < cfg.spacing) :
    (rows cfg : ℚ) * cfg.spacing ≤ effH cfg := by
  have hdiv : (0:ℚ) ≤ effH cfg / cfg.spacing := div_nonneg (effH_nonneg cfg) hs.le
  have hfl : (0:ℤ) ≤ ⌊effH cfg / cfg.spacing⌋ := Int.floor_nonneg.mpr hdiv
  have hcast : (rows cfg : ℚ) ≤ effH cfg / cfg.spacing := by
    have h1 : ((rows cfg : ℤ) : ℚ) ≤ effH cfg / cfg.spacing := by
      rw [rows, Int.toNat_of_nonneg hfl]
      exact Int.floor_le _
    exact_mod_cast h1
  calc (rows cfg : ℚ) * cfg.spacing ≤ (effH cfg / cfg.spacing) * cfg.spacing :=
        mul_le_mul_of_nonneg_right hcast hs.le
    _ = effH cfg := div_mul_cancel₀ _ hs.ne'

theorem effW_pos_eq (cfg : PlateConfig) (h : 0 < effW cfg) :
    effW cfg = cfg.width - cfg.margin * 2 := by
  by_cases ht : cfg.width - cfg.margin * 2 ≤ 0
  · exact absurd (max_eq_left ht ▸ h : (0:ℚ) < 0) (lt_irrefl 0)
  · exact max_eq_right (not_le.mp ht).le

theorem effH_pos_eq (cfg : PlateConfig) (h : 0 < effH cfg) :
    effH cfg = cfg.height - cfg.margin * 2 := by
  by_cases ht : cfg.height - cfg.margin * 2 ≤ 0
  · exact absurd (max_eq_left ht ▸ h : (0:ℚ) < 0) (lt_irrefl 0)
  · exact max_eq_right (not_le.mp ht).le

/-! ## C9: dot centres stay off the margin band -/

/-- C9 (implicit): with `margin ≥ 0` and `spacing > 0`, every emitted
dot's centre lies strictly inside the margin-excluded effective area:
`margin < x < width - margin` and `margin < y < height - margin`. -/
theorem dot_center_in_effective_area (cfg : PlateConfig) (img : Image) (d : Dot)
    (hm : 0 ≤ cfg.margin) (hs : 0 < cfg.spacing)
    (hd : d ∈ generateDots cfg img) :
    cfg.margin < d.x ∧ d.x < cfg.width - cfg.margin ∧
      cfg.margin < d.y ∧ d.y < cfg.height - cfg.margin := by
  rcases mem_generateDots.mp hd with ⟨-, yi, hy, xi, hx, hc⟩
  rcases cellDot_eq_some_iff.mp hc with ⟨-, rfl⟩
  have hxc : ((xi : ℚ) + 1) * cfg.spacing ≤ effW cfg := by
    have h1 : ((xi : ℚ) + 1) ≤ (cols cfg : ℚ) := by exact_mod_cast hx
    calc ((xi : ℚ) + 1) * cfg.spacing ≤ (cols cfg : ℚ) * cfg.spacing :=
          mul_le_mul_of_nonneg_right h1 hs.le
      _ ≤ effW cfg := cast_cols_mul_le cfg hs
  have hyc : ((yi : ℚ) + 1) * cfg.spacing ≤ effH cfg := by
    have h1 : ((yi : ℚ) + 1) ≤ (rows cfg : ℚ) := by exact_mod_cast hy
    calc ((yi : ℚ) + 1) * cfg.spacing ≤ (rows cfg : ℚ) * cfg.spacing :=
          mul_le_mul_of_nonneg_right h1 hs.le
      _ ≤ effH cfg := cast_rows_mul_le cfg hs
  have hxnn : (0:ℚ) ≤ (xi : ℚ) := Nat.cast_nonneg xi
  have hynn : (0:ℚ) ≤ (yi : ℚ) := Nat.cast_nonneg yi
  have hWpos : 0 < effW cfg := lt_of_lt_of_le (by nlinarith) hxc
  have hHpos : 0 < effH cfg := lt_of_lt_of_le (by nlinarith) hyc
  have hW := effW_pos_eq cfg hWpos
  have hH := effH_pos_eq cfg hHpos
  refine ⟨?_, ?_, ?_, ?_⟩ <;> simp only [physX, physY] <;> nlinarith

theorem dot_center_in_effective_area_witness :
    cfgA.margin < (Dot.mk 5 5 (7/4)).x ∧
      (Dot.mk 5 5 (7/4)).x < cfgA.width - cfgA.margin ∧
      cfgA.margin < (Dot.mk 5 5 (7/4)).y ∧
      (Dot.mk 5 5 (7/4)).y < cfgA.height - cfgA.margin :=
  dot_center_in_effective_area cfgA imgGray ⟨5, 5, 7/4⟩
    (by norm_num [cfgA]) (by norm_num [cfgA])
    (mem_generateDots.mpr ⟨by norm_num [effW, effH, cfgA], 0,
      by norm_num [rows, effH, cfgA], 0,
      by norm_num [cols, effW, cfgA] <;> decide,
      by norm_num [cellDot, mapRadius, sampleOf, luminance, physX, physY,
        imgGray, cfgA]⟩)

/-! ## C10: dot count -/

theorem sampleOf_nonneg (p : Pixel) : 0 ≤ sampleOf p := by
  unfold sampleOf luminance
  positivity

theorem sampleOf_le_one (p : Pixel) (hr : p.r ≤ 255) (hg : p.g ≤ 255)
    (hb : p.b ≤ 255) : sampleOf p ≤ 1 := by
  unfold sampleOf luminance
  rw [div_le_one (by norm_num)]
  have hr' : (p.r : ℚ) ≤ 255 := by exact_mod_cast hr
  have hg' : (p.g : ℚ) ≤ 255 := by exact_mod_cast hg
  have hb' : (p.b : ℚ) ≤ 255 := by exact_mod_cast hb
  nlinarith

theorem cols_eq_zero (cfg : PlateConfig) (h : effW cfg ≤ 0) : cols cfg = 0 := by
  have h0 : effW cfg = 0 := le_antisymm h (effW_nonneg cfg)
  rw [cols, h0, zero_div, Int.floor_zero]
  rfl

theorem rows_eq_zero (cfg : PlateConfig) (h : effH cfg ≤ 0) : rows cfg = 0 := by
  have h0 : effH cfg = 0 := le_antisymm h (effH_nonneg cfg)
  rw [rows, h0, zero_div, Int.floor_zero]
  rfl

theorem length_rowDots_le (cfg : PlateConfig) (img : Image) (y : ℕ) :
    (rowDots cfg img y).length ≤ cols cfg := by
  simpa [rowDots] using
    List.length_filterMap_le (cellDot cfg img y) (List.range (cols cfg))

theorem dotsUpTo_succ (cfg : PlateConfig) (img : Image) (n : ℕ) :
    dotsUpTo cfg img (n + 1) = dotsUpTo cfg img n ++ rowDots cfg img n := by
  unfold dotsUpTo
  rw [List.range_succ, List.flatMap_append]
  simp

theorem length_dotsUpTo_le (cfg : PlateConfig) (img : Image) (n : ℕ) :
    (dotsUpTo cfg img n).length ≤ n * cols cfg := by
  induction n with
  | zero => simp [dotsUpTo]
  | succ n ih =>
    rw [dotsUpTo_succ, List.length_append, Nat.succ_mul]
    exact Nat.add_le_add ih (length_rowDots_le cfg img n)

theorem length_filterMap_of_isSome {α β : Type} (f : α → Option β) (l : List α)
    (h : ∀ a ∈ l, (f a).isSome) : (l.filterMap f).length = l.length := by
  induction l with
  | nil => rfl
  | cons a l ih =>
    rw [List.filterMap_cons]
    rcases hfa : f a with - | b
    · exact absurd (h a (List.mem_cons_self a l)) (by simp [hfa])
    · rw [List.length_cons, List.length_cons,
        ih (fun x hx => h x (List.mem_cons_of_mem a hx))]

theorem cellDot_isSome_of_minHole (cfg : PlateConfig) (img : Image) (y x : ℕ)
    (h02 : 0.2 < cfg.minHoleSize) (hmm : cfg.minHoleSize ≤ cfg.maxHoleSize)
    (hbytes : ByteImage img) : (cellDot cfg img y x).isSome := by
  rcases hbytes y x with ⟨hr, hg, hb⟩
  have hlo := (mapRadius_bounds_aux cfg (sampleOf (img y x))
    (sampleOf_nonneg _) (sampleOf_le_one _ hr hg hb) hmm).1
  have : (0.1 : ℚ) < mapRadius cfg (sampleOf (img y x)) := by
    calc (0.1 : ℚ) < cfg.minHoleSize / 2 := by linarith
      _ ≤ _ := hlo
  simp [cellDot, this]

theorem length_dotsUpTo_eq (cfg : PlateConfig) (img : Image) (n : ℕ)
    (h : ∀ y, (rowDots cfg img y).length = cols cfg) :
    (dotsUpTo cfg img n).length = n * cols cfg := by
  induction n with
  | zero => simp [dotsUpTo]
  | succ n ih =>
    rw [dotsUpTo_succ, List.length_append, Nat.succ_mul, ih, h]

/-- On the no-throw paths of the engine (`generateDots`), with
`0 ≤ minHoleSize ≤ maxHoleSize` and byte-valued pixels, at most
`cols × rows` dots are emitted, and exactly `cols × rows` whenever
`minHoleSize > 0.2`mm, since then no cell is suppressed by the `0.1`mm
cutoff.  The zero-grid inputs on which the source instead throws are
settled by `dot_count_zero_grid_bug` below. -/
theorem dot_count_bounds (cfg : PlateConfig) (img : Image)
    (hm0 : 0 ≤ cfg.minHoleSize) (hmm : cfg.minHoleSize ≤ cfg.maxHoleSize)
    (hbytes : ByteImage img) :
    (generateDots cfg img).length ≤ cols cfg * rows cfg ∧
      (0.2 < cfg.minHoleSize →
        (generateDots cfg img).length = cols cfg * rows cfg) := by
  unfold generateDots
  split_ifs with h
  · rcases h with h | h
    · simp [cols_eq_zero cfg h]
    · simp [rows_eq_zero cfg h]
  · constructor
    · rw [Nat.mul_comm]
      exact length_dotsUpTo_le cfg img (rows cfg)
    · intro h02
      rw [Nat.mul_comm]
      refine length_dotsUpTo_eq cfg img (rows cfg) (fun y => ?_)
      unfold rowDots
      rw [length_filterMap_of_isSome _ _
        (fun x _ => cellDot_isSome_of_minHole cfg img y x h02 hmm hbytes)]
      exact List.length_range (cols cfg)

theorem dot_count_bounds_witness :
    (generateDots cfgA imgGray).length ≤ cols cfgA * rows cfgA ∧
      (0.2 < cfgA.minHoleSize →
        (generateDots cfgA imgGray).length = cols cfgA * rows cfgA) :=
  dot_count_bounds cfgA imgGray (by norm_num [cfgA]) (by norm_num [cfgA])
    (fun _ _ => ⟨by norm_num [imgGray], by norm_num [imgGray],
      by norm_num [imgGray]⟩)

/-- C10: the claim (and the spec's §4.2 edge case and §7 no-crash
policy) promise that a run whose grid has `cols = 0` or `rows = 0` cells
completes with exactly `cols * rows = 0` dots; at `cfgZ` every hypothesis
of the claim holds — `0 ≤ minHoleSize ≤ maxHoleSize`, `minHoleSize >
0.2`mm, a byte-valued image — and the grid is `0 × 0`, yet the engine
reaches `getImageData` with a zero dimension, throws `IndexSizeError`,
and publishes nothing: `generateDotsE` yields `none`, not `some []`. -/
theorem dot_count_zero_grid_bug :
    (0:ℚ) ≤ cfgZ.minHoleSize ∧ cfgZ.minHoleSize ≤ cfgZ.maxHoleSize ∧
      (0.2:ℚ) < cfgZ.minHoleSize ∧ ByteImage imgGray ∧
      (0:ℚ) < effW cfgZ ∧ (0:ℚ) < effH cfgZ ∧
      cols cfgZ * rows cfgZ = 0 ∧
      generateDotsE cfgZ imgGray = none ∧
      generateDotsE cfgZ imgGray ≠ some [] := by
  have hW : (0:ℚ) < effW cfgZ := by norm_num [effW, cfgZ]
  have hH : (0:ℚ) < effH cfgZ := by norm_num [effH, cfgZ]
  have hcols : cols cfgZ = 0 := by norm_num [cols, effW, cfgZ] <;> decide
  have hE : generateDotsE cfgZ imgGray = none := by
    rw [generateDotsE, if_neg (by push_neg; exact ⟨hW, hH⟩),
      if_pos (Or.inl hcols)]
  refine ⟨by norm_num [cfgZ], by norm_num [cfgZ], by norm_num [cfgZ],
    fun _ _ => ⟨by norm_num [imgGray], by norm_num [imgGray],
      by norm_num [imgGray]⟩,
    hW, hH, by rw [hcols, Nat.zero_mul], hE, by rw [hE]; exact nofun⟩

/-! ## C3: row-major ordering -/

/-- The ordering the spec asks of the dot sequence: non-decreasing `y`,
and non-decreasing `x` among dots of equal `y`. -/
def RowMajor (a b : Dot) : Prop := a.y ≤ b.y ∧ (a.y = b.y → a.x ≤ b.x)

theorem physX_mono (cfg : PlateConfig) (hs : 0 < cfg.spacing) {x₁ x₂ : ℕ}
    (h : x₁ ≤ x₂) : physX cfg x₁ ≤ physX cfg x₂ := by
  unfold physX
  have hc : (x₁ : ℚ) ≤ (x₂ : ℚ) := by exact_mod_cast h
  nlinarith

theorem physY_strictMono (cfg : PlateConfig) (hs : 0 < cfg.spacing) {y₁ y₂ : ℕ}
    (h : y₁ < y₂) : physY cfg y₁ < physY cfg y₂ := by
  unfold physY
  have hc : (y₁ : ℚ) + 1 ≤ (y₂ : ℚ) := by exact_mod_cast h
  nlinarith

theorem rowDots_pairwise (cfg : PlateConfig) (img : Image) (y : ℕ)
    (hs : 0 < cfg.spacing) : (rowDots cfg img y).Pairwise RowMajor := by
  unfold rowDots
  refine List.Pairwise.filterMap _ ?_ (List.pairwise_lt_range _)
  intro a a' haa b hb b' hb'
  rcases cellDot_eq_some_iff.mp (Option.mem_def.mp hb) with ⟨-, rfl⟩
  rcases cellDot_eq_some_iff.mp (Option.mem_def.mp hb') with ⟨-, rfl⟩
  exact ⟨le_refl _, fun _ => physX_mono cfg hs haa.le⟩

theorem mem_rowDots_y {cfg : PlateConfig} {img : Image} {y : ℕ} {d : Dot}
    (hd : d ∈ rowDots cfg img y) : d.y = physY cfg y := by
  rcases mem_rowDots.mp hd with ⟨x, -, hc⟩
  rcases cellDot_eq_some_iff.mp hc with ⟨-, rfl⟩
  rfl

/-- C3: for every non-degenerate run (`cols > 0`, `rows > 0`,
`spacing > 0`) the produced dot sequence is in row-major order:
`y` non-decreasing, and `x` non-decreasing among dots of equal `y`. -/
theorem generateDots_rowMajor (cfg : PlateConfig) (img : Image)
    (hs : 0 < cfg.spacing) (hc : 0 < cols cfg) (hr : 0 < rows cfg) :
    (generateDots cfg img).Pairwise RowMajor := by
  unfold generateDots
  split_ifs with h
  · exact List.Pairwise.nil
  · unfold dotsUpTo
    rw [List.flatMap_def]
    rw [List.pairwise_flatten]
    constructor
    · intro l hl
      rcases List.mem_map.mp hl with ⟨y, -, rfl⟩
      exact rowDots_pairwise cfg img y hs
    · rw [List.pairwise_map]
      refine List.Pairwise.imp ?_ (List.pairwise_lt_range _)
      intro y₁ y₂ hy d hd d' hd'
      have h1 := mem_rowDots_y hd
      have h2 := mem_rowDots_y hd'
      have hlt : d.y < d'.y := by
        rw [h1, h2]
        exact physY_strictMono cfg hs hy
      exact ⟨hlt.le, fun he => absurd he hlt.ne⟩

theorem generateDots_rowMajor_witness :
    (generateDots cfgA imgGray).Pairwise RowMajor :=
  generateDots_rowMajor cfgA imgGray (by norm_num [cfgA])
    (by norm_num [cols, effW, cfgA]) (by norm_num [rows, effH, cfgA])


/-! ## C4: E2E mid-gray scenario -/

/-- C4: on the `{width:100, height:100, spacing:10, margin:0,
minHoleSize:1, maxHoleSize:6, inverted:false}` config (any `threshold` and
`shape`) and any image whose every cell's luminance sample is exactly
`1/2`, the run produces exactly the 100 dots of radius `1.75`mm centred at
`(5,5), (15,5), …, (95,95)` in row-major order. -/
theorem e2e_midgray_run (th : ℚ) (sh : Shape) (img : Image)
    (h : ∀ y x, sampleOf (img y x) = 1/2) :
    generateDots
      { width := 100, height := 100, spacing := 10, minHoleSize := 1,
        maxHoleSize := 6, margin := 0, inverted := false, threshold := th,
        shape := sh } img =
      (List.range 10).flatMap (fun y =>
        (List.range 10).map (fun x =>
          ⟨5 + 10 * (x:ℚ), 5 + 10 * (y:ℚ), 1.75⟩)) := by
  set cfg : PlateConfig :=
    { width := 100, height := 100, spacing := 10, minHoleSize := 1,
      maxHoleSize := 6, margin := 0, inverted := false, threshold := th,
      shape := sh } with hcfg
  have hrows : rows cfg = 10 := by norm_num [rows, effH, hcfg] <;> decide
  have hcols : cols cfg = 10 := by norm_num [cols, effW, hcfg] <;> decide
  have hnd : ¬(effW cfg ≤ 0 ∨ effH cfg ≤ 0) := by norm_num [effW, effH, hcfg]
  have hcell : ∀ y x : ℕ, cellDot cfg img y x =
      some ⟨5 + 10 * (x:ℚ), 5 + 10 * (y:ℚ), 1.75⟩ := by
    intro y x
    rw [cellDot_eq_some_iff.mpr]
    constructor
    · rw [h y x]
      norm_num [mapRadius, hcfg]
    · rw [h y x]
      norm_num [mapRadius, physX, physY, hcfg]
      constructor <;> ring
  unfold generateDots dotsUpTo rowDots
  rw [if_neg hnd, hrows, hcols]
  refine List.flatMap_congr (fun y _ => ?_)
  calc List.filterMap (cellDot cfg img y) (List.range 10)
      = List.filterMap
          (some ∘ fun x : ℕ => (⟨5 + 10 * (x:ℚ), 5 + 10 * (y:ℚ), 1.75⟩ : Dot))
          (List.range 10) :=
        List.filterMap_congr (fun x _ => hcell y x)
    _ = List.map (fun x : ℕ => (⟨5 + 10 * (x:ℚ), 5 + 10 * (y:ℚ), 1.75⟩ : Dot))
          (List.range 10) := congrFun (List.filterMap_eq_map _) _

theorem e2e_midgray_run_witness :
    generateDots
      { width := 100, height := 100, spacing := 10, minHoleSize := 1,
        maxHoleSize := 6, margin := 0, inverted := false, threshold := 128,
        shape := Shape.circle } imgGray =
      (List.range 10).flatMap (fun y =>
        (List.range 10).map (fun x =>
          ⟨5 + 10 * (x:ℚ), 5 + 10 * (y:ℚ), 1.75⟩)) :=
  e2e_midgray_run 128 Shape.circle imgGray
    (fun _ _ => by norm_num [imgGray, sampleOf, luminance])


/-! ## C8: export numeric precision -/

theorem digitChar_isDigit (d : ℕ) (h : d < 10) : (Nat.digitChar d).isDigit := by
  interval_cases d <;> decide

theorem natDigitsAux_digits (fuel : ℕ) :
    ∀ n c, c ∈ natDigitsAux fuel n → c.isDigit := by
  induction fuel with
  | zero => intro n c hc; simp [natDigitsAux] at hc
  | succ fuel ih =>
    intro n c hc
    rw [natDigitsAux] at hc
    split_ifs at hc with h
    · rw [List.mem_singleton] at hc
      subst hc
      exact digitChar_isDigit _ h
    · rcases List.mem_append.mp hc with h1 | h1
      · exact ih _ _ h1
      · rw [List.mem_singleton] at h1
        subst h1
        exact digitChar_isDigit _ (Nat.mod_lt _ (by norm_num))

theorem natDigits_digits (n : ℕ) : ∀ c ∈ natDigits n, c.isDigit :=
  fun c hc => natDigitsAux_digits (n + 1) n c hc

theorem toFixed2_eval (q : ℚ) (n : ℕ) (h : jsRound (q * 100) = n) :
    toFixed2 q = String.mk (natDigits (n / 100)) ++ "." ++
      String.mk (pad2 (n % 100)) := by
  simp only [toFixed2, h, Int.natAbs_ofNat,
    if_neg (not_lt.mpr (Int.natCast_nonneg n))]
  apply congrArg (fun s => s ++ String.mk (pad2 (n % 100)))
  apply congrArg (fun s => s ++ ".")
  exact String.empty_append _

theorem toFixed2_fracLen2 (q : ℚ) : FracLen2 (toFixed2 q) := by
  refine ⟨((if jsRound (q * 100) < 0 then "-" else "") ++
      String.mk (natDigits ((jsRound (q * 100)).natAbs / 100))).data,
    Nat.digitChar ((jsRound (q * 100)).natAbs % 100 / 10),
    Nat.digitChar ((jsRound (q * 100)).natAbs % 100 % 10), ?_, ?_, ?_, ?_⟩
  · rw [toFixed2]
    rw [String.data_append, String.data_append, String.data_append]
    simp [pad2]
  · exact digitChar_isDigit _
      (Nat.div_lt_of_lt_mul (Nat.mod_lt _ (by norm_num)))
  · exact digitChar_isDigit _ (Nat.mod_lt _ (by norm_num))
  · intro hdot
    rw [String.data_append] at hdot
    rcases List.mem_append.mp hdot with h1 | h1
    · split_ifs at h1 <;> simp_all
    · have := natDigits_digits _ _ h1
      simp [Char.isDigit] at this

theorem jsNumToString_no_dot (q : ℚ) (h : q.den = 1) :
    '.' ∉ (jsNumToString q).data := by
  intro hdot
  rw [jsNumToString, h, if_pos rfl, String.data_append, String.data_append] at hdot
  rcases List.mem_append.mp hdot with h1 | h1
  · rcases List.mem_append.mp h1 with h2 | h2
    · split_ifs at h2 <;> simp_all
    · have := natDigits_digits _ _ h2
      simp [Char.isDigit] at this
  · simp at h1

/-- C8 (amended): only the circle `cx`/`cy`/`r` values are serialized with
fixed 2-decimal precision — every `toFixed2` output ends in a decimal
point followed by exactly two digits — while the document width/height,
viewBox and boundary rectangle go through plain number interpolation,
which prints an integral value with no decimal point at all; the exported
document is exactly the head, the concatenated circles, and the tail. -/
theorem svg_two_decimal_circles :
    (∀ q : ℚ, FracLen2 (toFixed2 q)) ∧
      (∀ q : ℚ, q.den = 1 → '.' ∉ (jsNumToString q).data) ∧
      (∀ cfg dots, svgContent cfg dots =
        svgHead cfg ++ String.join (dots.map circleStr) ++ svgTail) :=
  ⟨toFixed2_fracLen2, jsNumToString_no_dot, fun _ _ => rfl⟩

/-- C8 counterexample: on the 100×100 config with a single dot, the
document the exporter writes differs from the all-2-decimal document the
claim describes — the width, height, viewBox and rectangle interpolate
`"100"`, not `"100.00"`. -/
theorem svg_fixed2_counterexample :
    svgContent cfgA [⟨5, 5, 7/4⟩] ≠ svgContentAllFixed cfgA [⟨5, 5, 7/4⟩] := by
  have hw : cfgA.width = 100 := by norm_num [cfgA]
  have hh : cfgA.height = 100 := by norm_num [cfgA]
  have hjs : jsNumToString (100:ℚ) = "100" := by
    simp only [jsNumToString, Rat.num_ofNat, Rat.den_ofNat]
    decide
  have h100 : toFixed2 (100:ℚ) = "100.00" := by
    rw [toFixed2_eval (100:ℚ) 10000 (by norm_num [jsRound])]
    decide
  have h5 : toFixed2 (5:ℚ) = "5.00" := by
    rw [toFixed2_eval (5:ℚ) 500 (by norm_num [jsRound])]
    decide
  have h74 : toFixed2 ((7:ℚ)/4) = "1.75" := by
    rw [toFixed2_eval ((7:ℚ)/4) 175 (by norm_num [jsRound])]
    decide
  have hc : circleStr ⟨5, 5, 7/4⟩ =
      "<circle cx=\"5.00\" cy=\"5.00\" r=\"1.75\" />" := by
    simp only [circleStr]
    rw [h5, h74]
    decide
  simp only [svgContent, svgContentAllFixed, svgHead, svgTail, hw, hh, hjs,
    h100, List.map_cons, List.map_nil, hc]
  decide

theorem svg_two_decimal_circles_witness :
    FracLen2 (toFixed2 ((7:ℚ)/4)) ∧ '.' ∉ (jsNumToString (100:ℚ)).data ∧
      svgContent cfgA [⟨5, 5, 7/4⟩] =
        svgHead cfgA ++ String.join ([(⟨5, 5, 7/4⟩ : Dot)].map circleStr) ++ svgTail :=
  ⟨svg_two_decimal_circles.1 ((7:ℚ)/4),
    svg_two_decimal_circles.2.1 100 (by norm_num),
    svg_two_decimal_circles.2.2 cfgA [⟨5, 5, 7/4⟩]⟩


/-! ## C2: cancellation safety — helper lemmas -/

theorem dotsUpTo_add (cfg : PlateConfig) (img : Image) (y n : ℕ) :
    dotsUpTo cfg img (y + n) = dotsUpTo cfg img y ++ rowsSeg cfg img y n := by
  unfold dotsUpTo rowsSeg
  have h := List.range'_append 0 y n 1
  simp only [one_mul, zero_add] at h
  rw [List.range_eq_range', List.range_eq_range' y, Nat.add_comm y n, ← h,
    List.flatMap_append]

theorem dotsUpTo_tail (cfg : PlateConfig) (img : Image) (y : ℕ)
    (h : y ≤ rows cfg) :
    dotsUpTo cfg img y ++ rowsSeg cfg img y (rows cfg - y) =
      dotsUpTo cfg img (rows cfg) := by
  rw [← dotsUpTo_add]
  congr 1
  omega

theorem lastStart_append_start (tr : List Event) (cfg : PlateConfig)
    (img : Image) :
    lastStart (tr ++ [Event.start cfg img]) = some (cfg, img) := by
  induction tr with
  | nil => rfl
  | cons e tr ih =>
    rw [List.cons_append, lastStart, ih]
    rfl

theorem lastStart_append_chunk (tr : List Event) (t n : ℕ) :
    lastStart (tr ++ [Event.chunk t n]) = lastStart tr := by
  induction tr with
  | nil => rfl
  | cons e tr ih =>
    rw [List.cons_append, lastStart, ih]
    conv_rhs => rw [lastStart]

theorem runTrace_append_one (tr : List Event) (e : Event) :
    runTrace (tr ++ [e]) = step (runTrace tr) e := by
  unfold runTrace
  rw [List.foldl_append]
  rfl

theorem chunkStep_none (s : Sys) (t n : ℕ) (h : s.runs t = none) :
    chunkStep s t n = s := by
  unfold chunkStep
  rw [h]

theorem chunkStep_stopped (s : Sys) (t n : ℕ) (r : Run)
    (h : s.runs t = some r) (hst : r.stopped = true) : chunkStep s t n = s := by
  unfold chunkStep
  rw [h]
  simp [hst]

theorem chunkStep_stale (s : Sys) (t n : ℕ) (r : Run)
    (h : s.runs t = some r) (hst : r.stopped = false)
    (hne : t ≠ s.curToken) :
    chunkStep s t n =
      { s with runs := fun u => if u = t then some { r with stopped := true }
          else s.runs u } := by
  unfold chunkStep
  rw [h]
  simp [hst, hne]

theorem chunkStep_deg (s : Sys) (t n : ℕ) (r : Run)
    (h : s.runs t = some r) (hst : r.stopped = false) (heq : t = s.curToken)
    (hdeg : effW r.cfg ≤ 0 ∨ effH r.cfg ≤ 0) :
    chunkStep s t n =
      { s with
        published := [],
        processing := false,
        runs := fun u => if u = t then some { r with stopped := true }
          else s.runs u } := by
  unfold chunkStep
  rw [h]
  simp [hst, heq, hdeg]

theorem chunkStep_yield (s : Sys) (t n : ℕ) (r : Run)
    (h : s.runs t = some r) (hst : r.stopped = false) (heq : t = s.curToken)
    (hndeg : ¬(effW r.cfg ≤ 0 ∨ effH r.cfg ≤ 0))
    (hlt : r.y + n < rows r.cfg) :
    chunkStep s t n =
      { s with
        progress := jsRound (((r.y + n : ℚ) / (rows r.cfg : ℚ)) * 100),
        runs := fun u => if u = t then
            some { r with y := r.y + n, acc := r.acc ++ rowsSeg r.cfg r.img r.y n }
          else s.runs u } := by
  unfold chunkStep
  rw [h]
  simp [hst, heq, hndeg, hlt]

theorem chunkStep_finish (s : Sys) (t n : ℕ) (r : Run)
    (h : s.runs t = some r) (hst : r.stopped = false) (heq : t = s.curToken)
    (hndeg : ¬(effW r.cfg ≤ 0 ∨ effH r.cfg ≤ 0))
    (hge : ¬(r.y + n < rows r.cfg)) :
    chunkStep s t n =
      { s with
        published := r.acc ++ rowsSeg r.cfg r.img r.y (rows r.cfg - r.y),
        progress := 100,
        processing := false,
        runs := fun u => if u = t then
            some { r with
              y := rows r.cfg,
              acc := r.acc ++ rowsSeg r.cfg r.img r.y (rows r.cfg - r.y),
              stopped := true }
          else s.runs u } := by
  unfold chunkStep
  rw [h]
  simp [hst, heq, hndeg, hge]

theorem sysInv_start (tr : List Event) (s : Sys) (cfg : PlateConfig)
    (img : Image) (h : SysInv tr s) :
    SysInv (tr ++ [Event.start cfg img]) (startStep s cfg img) := by
  obtain ⟨ih1, ih2⟩ := h
  constructor
  · intro u ru hu
    replace hu : (if u = s.curToken + 1 then some (⟨cfg, img, 0, [], false⟩ : Run)
        else s.runs u) = some ru := hu
    by_cases hut : u = s.curToken + 1
    · rw [if_pos hut] at hu
      injection hu with hru
      refine ⟨?_, ?_, ?_⟩
      · show u ≤ s.curToken + 1
        omega
      · rw [← hru]
        exact Nat.zero_le _
      · intro hstop
        rw [← hru]
        rfl
    · rw [if_neg hut] at hu
      obtain ⟨h1, h2, h3⟩ := ih1 u ru hu
      refine ⟨?_, h2, h3⟩
      show u ≤ s.curToken + 1
      omega
  · intro ru hu
    replace hu : (if s.curToken + 1 = s.curToken + 1 then
        some (⟨cfg, img, 0, [], false⟩ : Run)
        else s.runs (s.curToken + 1)) = some ru := hu
    rw [if_pos rfl] at hu
    injection hu with hru
    rw [← hru]
    exact lastStart_append_start tr cfg img

theorem sysInv_chunk (tr : List Event) (s : Sys) (t n : ℕ) (h : SysInv tr s) :
    SysInv (tr ++ [Event.chunk t n]) (chunkStep s t n) := by
  obtain ⟨ih1, ih2⟩ := h
  have hls := lastStart_append_chunk tr t n
  rcases hrt : s.runs t with - | r
  · rw [chunkStep_none s t n hrt]
    exact ⟨ih1, fun ru hu => hls ▸ ih2 ru hu⟩
  · cases hst : r.stopped with
    | true =>
      rw [chunkStep_stopped s t n r hrt hst]
      exact ⟨ih1, fun ru hu => hls ▸ ih2 ru hu⟩
    | false =>
      by_cases hteq : t = s.curToken
      · by_cases hdeg : effW r.cfg ≤ 0 ∨ effH r.cfg ≤ 0
        · -- degenerate publish: the run stops
          rw [chunkStep_deg s t n r hrt hst hteq hdeg]
          constructor
          · intro u ru hu
            replace hu : (if u = t then some { r with stopped := true }
                else s.runs u) = some ru := hu
            by_cases hut : u = t
            · rw [if_pos hut] at hu
              injection hu with hru
              obtain ⟨h1, h2, h3⟩ := ih1 t r hrt
              refine ⟨?_, ?_, ?_⟩
              · show u ≤ s.curToken
                omega
              · rw [← hru]
                exact h2
              · intro hstop
                rw [← hru] at hstop
                exact absurd hstop (by simp)
            · rw [if_neg hut] at hu
              exact ih1 u ru hu
          · intro ru hu
            replace hu : (if s.curToken = t then some { r with stopped := true }
                else s.runs s.curToken) = some ru := hu
            rw [if_pos hteq.symm] at hu
            injection hu with hru
            rw [hls, ← hru]
            exact ih2 r (hteq ▸ hrt)
        · by_cases hlt : r.y + n < rows r.cfg
          · -- mid-run yield: the slice is appended to the accumulator
            rw [chunkStep_yield s t n r hrt hst hteq hdeg hlt]
            constructor
            · intro u ru hu
              replace hu : (if u = t then
                  some { r with
                    y := r.y + n,
                    acc := r.acc ++ rowsSeg r.cfg r.img r.y n }
                  else s.runs u) = some ru := hu
              by_cases hut : u = t
              · rw [if_pos hut] at hu
                injection hu with hru
                obtain ⟨h1, h2, h3⟩ := ih1 t r hrt
                refine ⟨?_, ?_, ?_⟩
                · show u ≤ s.curToken
                  omega
                · rw [← hru]
                  exact Nat.le_of_lt hlt
                · intro hstop
                  rw [← hru]
                  show r.acc ++ rowsSeg r.cfg r.img r.y n =
                    dotsUpTo r.cfg r.img (r.y + n)
                  rw [h3 hst]
                  exact (dotsUpTo_add r.cfg r.img r.y n).symm
              · rw [if_neg hut] at hu
                exact ih1 u ru hu
            · intro ru hu
              replace hu : (if s.curToken = t then
                  some { r with
                    y := r.y + n,
                    acc := r.acc ++ rowsSeg r.cfg r.img r.y n }
                  else s.runs s.curToken) = some ru := hu
              rw [if_pos hteq.symm] at hu
              injection hu with hru
              rw [hls, ← hru]
              exact ih2 r (hteq ▸ hrt)
          · -- final chunk: publish and stop
            rw [chunkStep_finish s t n r hrt hst hteq hdeg hlt]
            constructor
            · intro u ru hu
              replace hu : (if u = t then
                  some { r with
                    y := rows r.cfg,
                    acc := r.acc ++ rowsSeg r.cfg r.img r.y (rows r.cfg - r.y),
                    stopped := true }
                  else s.runs u) = some ru := hu
              by_cases hut : u = t
              · rw [if_pos hut] at hu
                injection hu with hru
                obtain ⟨h1, h2, h3⟩ := ih1 t r hrt
                refine ⟨?_, ?_, ?_⟩
                · show u ≤ s.curToken
                  omega
                · rw [← hru]
                · intro hstop
                  rw [← hru] at hstop
                  exact absurd hstop (by simp)
              · rw [if_neg hut] at hu
                exact ih1 u ru hu
            · intro ru hu
              replace hu : (if s.curToken = t then
                  some { r with
                    y := rows r.cfg,
                    acc := r.acc ++ rowsSeg r.cfg r.img r.y (rows r.cfg - r.y),
                    stopped := true }
                  else s.runs s.curToken) = some ru := hu
              rw [if_pos hteq.symm] at hu
              injection hu with hru
              rw [hls, ← hru]
              exact ih2 r (hteq ▸ hrt)
      · -- stale token: the run only marks itself stopped
        rw [chunkStep_stale s t n r hrt hst hteq]
        constructor
        · intro u ru hu
          replace hu : (if u = t then some { r with stopped := true }
              else s.runs u) = some ru := hu
          by_cases hut : u = t
          · rw [if_pos hut] at hu
            injection hu with hru
            obtain ⟨h1, h2, h3⟩ := ih1 t r hrt
            refine ⟨?_, ?_, ?_⟩
            · show u ≤ s.curToken
              omega
            · rw [← hru]
              exact h2
            · intro hstop
              rw [← hru] at hstop
              exact absurd hstop (by simp)
          · rw [if_neg hut] at hu
            exact ih1 u ru hu
        · intro ru hu
          replace hu : (if s.curToken = t then some { r with stopped := true }
              else s.runs s.curToken) = some ru := hu
          rw [if_neg (fun h => hteq h.symm)] at hu
          rw [hls]
          exact ih2 ru hu

theorem sysInv_runTrace (tr : List Event) : SysInv tr (runTrace tr) := by
  induction tr using List.reverseRecOn with
  | nil =>
    constructor
    · intro t r h
      simp [runTrace, initSys] at h
    · intro r h
      simp [runTrace, initSys] at h
  | append_singleton tr e ih =>
    rw [runTrace_append_one]
    cases e with
    | start cfg img => exact sysInv_start tr (runTrace tr) cfg img ih
    | chunk t n => exact sysInv_chunk tr (runTrace tr) t n ih

/-- C2: in every reachable state of the chunked scheduler, (i) a chunk
callback of a run whose token is no longer current changes neither the
published dots nor the progress nor the processing flag, and (ii) whenever
a chunk callback changes the published dots, the new value is exactly the
uninterrupted computation `generateDots` on the inputs of the most
recently started run. -/
theorem cancellation_safety (tr : List Event) (t n : ℕ) (r : Run)
    (hr : (runTrace tr).runs t = some r) :
    (t ≠ (runTrace tr).curToken →
      (chunkStep (runTrace tr) t n).published = (runTrace tr).published ∧
      (chunkStep (runTrace tr) t n).progress = (runTrace tr).progress ∧
      (chunkStep (runTrace tr) t n).processing = (runTrace tr).processing) ∧
    (∀ cfg img, lastStart tr = some (cfg, img) →
      (chunkStep (runTrace tr) t n).published ≠ (runTrace tr).published →
      (chunkStep (runTrace tr) t n).published = generateDots cfg img) := by
  obtain ⟨inv1, inv2⟩ := sysInv_runTrace tr
  constructor
  · intro hne
    cases hst : r.stopped with
    | true =>
      rw [chunkStep_stopped (runTrace tr) t n r hr hst]
      exact ⟨rfl, rfl, rfl⟩
    | false =>
      rw [chunkStep_stale (runTrace tr) t n r hr hst hne]
      exact ⟨rfl, rfl, rfl⟩
  · intro cfg img hlast hpub
    cases hst : r.stopped with
    | true =>
      rw [chunkStep_stopped (runTrace tr) t n r hr hst] at hpub
      exact absurd rfl hpub
    | false =>
      by_cases hteq : t = (runTrace tr).curToken
      · by_cases hdeg : effW r.cfg ≤ 0 ∨ effH r.cfg ≤ 0
        · rw [chunkStep_deg (runTrace tr) t n r hr hst hteq hdeg]
          have hri := inv2 r (hteq ▸ hr)
          rw [hlast] at hri
          injection hri with hpair
          show ([] : List Dot) = generateDots cfg img
          rw [show cfg = r.cfg from congrArg Prod.fst hpair,
            show img = r.img from congrArg Prod.snd hpair,
            generateDots, if_pos hdeg]
        · by_cases hlt : r.y + n < rows r.cfg
          · rw [chunkStep_yield (runTrace tr) t n r hr hst hteq hdeg hlt] at hpub
            exact absurd rfl hpub
          · rw [chunkStep_finish (runTrace tr) t n r hr hst hteq hdeg hlt]
            obtain ⟨-, hy, hacc⟩ := inv1 t r hr
            have hri := inv2 r (hteq ▸ hr)
            rw [hlast] at hri
            injection hri with hpair
            show r.acc ++ rowsSeg r.cfg r.img r.y (rows r.cfg - r.y) =
              generateDots cfg img
            rw [hacc hst, dotsUpTo_tail r.cfg r.img r.y hy,
              show cfg = r.cfg from congrArg Prod.fst hpair,
              show img = r.img from congrArg Prod.snd hpair,
              generateDots, if_neg hdeg]
      · rw [chunkStep_stale (runTrace tr) t n r hr hst hteq] at hpub
        exact absurd rfl hpub

theorem cancellation_safety_witness :
    ((chunkStep (runTrace trW) 1 5).published = (runTrace trW).published ∧
      (chunkStep (runTrace trW) 1 5).progress = (runTrace trW).progress ∧
      (chunkStep (runTrace trW) 1 5).processing = (runTrace trW).processing) ∧
    (chunkStep (runTrace trW) 2 9).published = generateDots cfgDeg imgGray := by
  have hrowsA : rows cfgA = 10 := by norm_num [rows, effH, cfgA] <;> decide
  have hndA : ¬(effW cfgA ≤ 0 ∨ effH cfgA ≤ 0) := by
    norm_num [effW, effH, cfgA]
  have hB := chunkStep_finish (startStep initSys cfgA imgGray) 1 1000
    ⟨cfgA, imgGray, 0, [], false⟩ rfl rfl rfl
    (by show ¬(effW cfgA ≤ 0 ∨ effH cfgA ≤ 0); exact hndA)
    (by show ¬(0 + 1000 < rows cfgA); rw [hrowsA]; omega)
  have hr0 : runTrace trW =
      startStep (chunkStep (startStep initSys cfgA imgGray) 1 1000)
        cfgDeg imgGray := rfl
  have hrun1 : (runTrace trW).runs 1 =
      some ⟨cfgA, imgGray, rows cfgA,
        rowsSeg cfgA imgGray 0 (rows cfgA - 0), true⟩ := by
    rw [hr0, hB]
    rfl
  have hrun2 : (runTrace trW).runs 2 =
      some ⟨cfgDeg, imgGray, 0, [], false⟩ := by
    rw [hr0, hB]
    rfl
  have hcur : (runTrace trW).curToken = 2 := by
    rw [hr0, hB]
    rfl
  have hpubW : (runTrace trW).published =
      rowsSeg cfgA imgGray 0 (rows cfgA - 0) := by
    rw [hr0, hB]
    rfl
  have hdegD : effW cfgDeg ≤ 0 ∨ effH cfgDeg ≤ 0 :=
    Or.inl (by norm_num [effW, cfgDeg])
  have h2 := chunkStep_deg (runTrace trW) 2 9 ⟨cfgDeg, imgGray, 0, [], false⟩
    hrun2 rfl hcur.symm
    (by show effW cfgDeg ≤ 0 ∨ effH cfgDeg ≤ 0; exact hdegD)
  have hpub2 : (chunkStep (runTrace trW) 2 9).published = [] := by rw [h2]
  have hmem : (⟨5, 5, 7/4⟩ : Dot) ∈ rowsSeg cfgA imgGray 0 (rows cfgA - 0) := by
    rw [hrowsA]
    unfold rowsSeg
    refine List.mem_flatMap.mpr ⟨0, by decide, ?_⟩
    exact mem_rowDots.mpr ⟨0, by norm_num [cols, effW, cfgA] <;> decide,
      by norm_num [cellDot, mapRadius, sampleOf, luminance, physX, physY,
        imgGray, cfgA]⟩
  have hne2 : (chunkStep (runTrace trW) 2 9).published ≠
      (runTrace trW).published := by
    rw [hpub2, hpubW]
    intro hcontra
    rw [← hcontra] at hmem
    exact absurd hmem (List.not_mem_nil _)
  exact ⟨(cancellation_safety trW 1 5 _ hrun1).1 (by rw [hcur]; omega),
    (cancellation_safety trW 2 9 _ hrun2).2 cfgDeg imgGray rfl hne2⟩

end Perf
